import Mathlib

/-!
Verification development for the `agent-workspace` library: a shallow
embedding, in Lean 4, of the Output Validation Engine (`src/validation.ts`,
function `validateOutput`), the Workspace Lifecycle Manager
(`src/manager.ts`, class `WorkspaceManager`) and the Section Resolver
(`src/handle.ts`, method `WorkspaceHandle.dir`), together with theorems
settling the stated properties of those components.

Modelling conventions:
* JavaScript exceptions are modelled with `Except String`: a call that may
  throw returns `Except.error msg` on a throw, carrying the message that
  `err instanceof Error ? err.message : String(err)` would produce.
  A `try { .. } catch { .. }` block is translated as a `match` on the
  `Except` outcome of the fallible call it guards.
* The filesystem is an explicit environment: for the validation engine,
  `FsEnv` gives the outcome of `fs.access` and of the format codec
  (`readFileByFormat`) at every path; for the lifecycle manager,
  `RootState` records the immediate entries of the managed root and the
  outcome of reading the `.workspace.json` metadata of each one.
  Decoded file contents are opaque `Value`s; `Array.isArray` corresponds
  to the `Value.arr` constructor.
* The untyped return value of a custom `validate` callback is a `JsVal`;
  the engine's `result === false` test is equality with `JsVal.bool false`.
* Timestamps are integer milliseconds (`Int`), standing for
  `Date.now()` / `Date.prototype.getTime()` values.
* `path.join` is modelled as interposing a single separator; no claim
  below depends on path normalisation.
-/

namespace AgentWorkspace

/-- Model of `path.join(a, b)`: simple separator interposition. -/
def pathJoin (a b : String) : String := a ++ "/" ++ b

/-- The `format` field of an `OutputFileSpec` (`src/types.ts`):
`'json' | 'jsonl' | 'markdown' | 'raw'`. -/
inductive Format
  | json
  | jsonl
  | markdown
  | raw
  deriving DecidableEq, Repr

/-- An abstract decoded file content, as returned by a format codec.
`arr` marks the values for which `Array.isArray` is true. -/
inductive Value
  | arr : List Value → Value
  | atom : Nat → Value

/-- A JavaScript runtime value, as returned (after `await`) by a custom
`validate` callback; the declared type is `boolean`, but at runtime any
value may come back. -/
inductive JsVal
  | bool : Bool → JsVal
  | num : Int → JsVal
  | str : String → JsVal
  | null : JsVal
  | undef : JsVal
  deriving DecidableEq, Repr

/-- Record `OutputFileSpec` (`src/types.ts`).  A `schema` is any `parse`
capability: it throws (`Except.error`) on rejection.  `validate` may throw
or reject (`Except.error`) or return any runtime value. -/
structure OutputFileSpec where
  path : String
  format : Format
  required : Bool
  description : Option String
  schema : Option (Value → Except String Value)
  validate : Option (Value → Except String JsVal)

/-- Record `OutputSpec` (`src/types.ts`). -/
structure OutputSpec where
  files : List OutputFileSpec

/-- Record `ValidationError` (`src/types.ts`). -/
structure ValidationError where
  path : String
  message : String
  deriving DecidableEq, Repr

/-- Record `ValidationResult` (`src/types.ts`). -/
structure ValidationResult where
  valid : Bool
  errors : List ValidationError
  deriving DecidableEq, Repr

/-- The filesystem-plus-codec environment seen by `validateOutput`:
`access p` is the outcome of `fs.access(p)` (error = file absent or
inaccessible), `decode fmt p` the outcome of `readFileByFormat` for a spec
of format `fmt` whose full path is `p` (error = read or decode failure). -/
structure FsEnv where
  access : String → Except String Unit
  decode : Format → String → Except String Value

/-- The suffix appended to the missing-file message: the parenthesized
description when one is supplied, the empty string otherwise. -/
def descSuffix : Option String → String
  | some d => " (" ++ d ++ ")"
  | none => ""

/-- The loop `for (const item of content) fileSpec.schema.parse(item)`
of `src/validation.ts`: the first throwing item aborts the loop. -/
def parseItems (sch : Value → Except String Value) : List Value → Except String Unit
  | [] => Except.ok ()
  | v :: vs =>
    match sch v with
    | Except.ok _ => parseItems sch vs
    | Except.error e => Except.error e

/-- The body of the schema `try` block in `src/validation.ts`:
per-item parsing when `format === 'jsonl' && Array.isArray(content)`,
otherwise a single `schema.parse(content)`. -/
def runSchema (sch : Value → Except String Value) (fmt : Format) (content : Value) :
    Except String Unit :=
  match fmt, content with
  | Format.jsonl, Value.arr items => parseItems sch items
  | _, c =>
    match sch c with
    | Except.ok _ => Except.ok ()
    | Except.error e => Except.error e

/-- The schema-check block of `src/validation.ts` (lines 63–79): skipped
when no schema is configured; a caught throw becomes one
`"Schema validation failed: .."` error. -/
def schemaErrors (fs : OutputFileSpec) (content : Value) : List ValidationError :=
  match fs.schema with
  | none => []
  | some sch =>
    match runSchema sch fs.format content with
    | Except.ok _ => []
    | Except.error e => [⟨fs.path, "Schema validation failed: " ++ e⟩]

/-- The custom-callback block of `src/validation.ts` (lines 81–97): skipped
when no callback is configured; a returned value `=== false` becomes one
`"Custom validation returned false"` error, a caught throw/rejection one
`"Custom validation threw: .."` error. -/
def validateErrors (fs : OutputFileSpec) (content : Value) : List ValidationError :=
  match fs.validate with
  | none => []
  | some f =>
    match f content with
    | Except.ok r =>
      if r = JsVal.bool false then
        [⟨fs.path, "Custom validation returned false"⟩]
      else []
    | Except.error e => [⟨fs.path, "Custom validation threw: " ++ e⟩]

/-- One iteration of the `for (const fileSpec of spec.files)` loop of
`validateOutput` (`src/validation.ts`): the list of errors this spec
appends.  Absent file: one `"Required file missing"` error when required,
nothing otherwise, and no further check runs.  Read/decode failure: one
`"Failed to read file: .."` error.  Otherwise the schema block and then
the custom-callback block each contribute their errors. -/
def checkSpec (env : FsEnv) (outputDir : String) (fs : OutputFileSpec) :
    List ValidationError :=
  match env.access (pathJoin outputDir fs.path) with
  | Except.error _ =>
    if fs.required then
      [⟨fs.path, "Required file missing" ++ descSuffix fs.description⟩]
    else []
  | Except.ok _ =>
    match env.decode fs.format (pathJoin outputDir fs.path) with
    | Except.error e => [⟨fs.path, "Failed to read file: " ++ e⟩]
    | Except.ok content => schemaErrors fs content ++ validateErrors fs content

/-- The spec loop of `validateOutput`, threading the mutable `errors`
array as an accumulator. -/
def validateLoop (env : FsEnv) (outputDir : String) :
    List OutputFileSpec → List ValidationError → List ValidationError
  | [], errors => errors
  | fs :: rest, errors =>
    validateLoop env outputDir rest (errors ++ checkSpec env outputDir fs)

/-- Function `validateOutput` (`src/validation.ts`):
returns `{ valid: errors.length === 0, errors }`. -/
def validateOutput (env : FsEnv) (outputDir : String) (spec : OutputSpec) :
    ValidationResult :=
  let errors := validateLoop env outputDir spec.files []
  ⟨errors.length == 0, errors⟩

/-- Exception-level translation of one loop iteration of `validateOutput`.
Every fallible primitive (`fs.access`, `readFileByFormat`, `schema.parse`,
the `validate` callback) is an `Except` computation, and each `try/catch`
of the source appears as a `match` exactly where the source has it; an
exception not caught by the source would surface as `Except.error` here and
propagate out of the whole loop. -/
def checkSpecE (env : FsEnv) (outputDir : String) (fs : OutputFileSpec)
    (errors : List ValidationError) : Except String (List ValidationError) :=
  match env.access (pathJoin outputDir fs.path) with
  | Except.error _ =>
    -- catch: push "Required file missing" when required, then `continue`
    if fs.required then
      Except.ok (errors ++ [⟨fs.path, "Required file missing" ++ descSuffix fs.description⟩])
    else Except.ok errors
  | Except.ok _ =>
    -- outer try: decode, then the two independently guarded check blocks
    match env.decode fs.format (pathJoin outputDir fs.path) with
    | Except.error e =>
      -- outer catch: push "Failed to read file"
      Except.ok (errors ++ [⟨fs.path, "Failed to read file: " ++ e⟩])
    | Except.ok content =>
      Except.ok (errors ++ schemaErrors fs content ++ validateErrors fs content)

/-- Exception-level spec loop: an `Except.error` escaping one iteration
aborts the whole call (an uncaught throw would reject the promise). -/
def validateLoopE (env : FsEnv) (outputDir : String) :
    List OutputFileSpec → List ValidationError → Except String (List ValidationError)
  | [], errors => Except.ok errors
  | fs :: rest, errors =>
    match checkSpecE env outputDir fs errors with
    | Except.error e => Except.error e
    | Except.ok errors₂ => validateLoopE env outputDir rest errors₂

/-- Exception-level `validateOutput`: `Except.error` would mean the call
raised instead of returning a `ValidationResult`. -/
def validateOutputE (env : FsEnv) (outputDir : String) (spec : OutputSpec) :
    Except String ValidationResult :=
  match validateLoopE env outputDir spec.files [] with
  | Except.error e => Except.error e
  | Except.ok errors => Except.ok ⟨errors.length == 0, errors⟩

/-- Record `WorkspaceMeta` (`src/types.ts`): the persisted `.workspace.json`
record.  `createdAt` is stored as an ISO-8601 string and read back with
`new Date(..)`; since the round trip is identity at millisecond precision
it is modelled directly as the millisecond timestamp. -/
structure WorkspaceMeta where
  id : String
  taskType : String
  createdAt : Int
  dirs : List String
  deriving DecidableEq, Repr

/-- The state of `WorkspaceHandle` (`src/handle.ts`): `id`, root `path`,
recorded section `dirs`, and `createdAt` (a `Date`, modelled by its
millisecond value). -/
structure WorkspaceHandle where
  id : String
  path : String
  dirs : List String
  createdAt : Int
  deriving DecidableEq, Repr

/-- Method `WorkspaceHandle.dir` (`src/handle.ts`, lines 25–32): a pure,
synchronous lookup — it performs no filesystem call.  An unknown section
name throws (`Except.error`) with a message listing every recorded
section name, joined by `", "` in recorded order; a known name returns
`path.join(this.path, name)`. -/
def WorkspaceHandle.dir (h : WorkspaceHandle) (name : String) : Except String String :=
  if !(h.dirs.contains name) then
    Except.error ("Unknown section \"" ++ name ++ "\". Available: "
      ++ String.intercalate ", " h.dirs)
  else
    Except.ok (pathJoin h.path name)

/-- Constant `DEFAULT_DIRS` (`src/manager.ts`). -/
def DEFAULT_DIRS : List String := ["input", "output", "resources", "scratch"]

/-- Reconstruction of a handle from a metadata record, as the loop body of
`WorkspaceManager.list` does:
`new WorkspaceHandle(meta.id, path.join(root, entryName), meta.dirs, new Date(meta.createdAt))`. -/
def mkHandle (root entryName : String) (meta : WorkspaceMeta) : WorkspaceHandle :=
  ⟨meta.id, pathJoin root entryName, meta.dirs, meta.createdAt⟩

/-- What `WorkspaceManager.create` produces: the metadata record written
to disk and the handle returned to the caller.  The `mkdir` calls create
directories whose existence no later operation consults (handles are
reconstructed from metadata alone), so they are elided. -/
structure CreateResult where
  meta : WorkspaceMeta
  handle : WorkspaceHandle
  deriving Repr

/-- Method `WorkspaceManager.create` (`src/manager.ts`, lines 280–302):
`id = taskType + '-' + Date.now() + '-' + <random suffix>`, the section
list is the four defaults followed by `options.additionalDirs`, the
metadata record `{id, taskType, createdAt, dirs}` is written last, and the
returned handle carries the same id, path `path.join(root, id)`, the same
section list and the same creation time.  `now` is the creation timestamp
and `suffix` the random id suffix, both passed explicitly. -/
def create (root taskType : String) (additionalDirs : List String)
    (now : Int) (suffix : String) : CreateResult :=
  let id := taskType ++ "-" ++ toString now ++ "-" ++ suffix
  let workspacePath := pathJoin root id
  let allDirs := DEFAULT_DIRS ++ additionalDirs
  let meta : WorkspaceMeta := ⟨id, taskType, now, allDirs⟩
  ⟨meta, ⟨id, workspacePath, allDirs, now⟩⟩

instance decEqExceptString {α : Type} [DecidableEq α] : DecidableEq (Except String α)
  | Except.error a, Except.error b =>
    if h : a = b then isTrue (by rw [h]) else isFalse (fun hc => h (by cases hc; rfl))
  | Except.error _, Except.ok _ => isFalse (fun hc => Except.noConfusion hc)
  | Except.ok _, Except.error _ => isFalse (fun hc => Except.noConfusion hc)
  | Except.ok a, Except.ok b =>
    if h : a = b then isTrue (by rw [h]) else isFalse (fun hc => h (by cases hc; rfl))

/-- One immediate entry of the managed root: either a non-directory file,
or a subdirectory together with the outcome of reading and JSON-parsing
its `.workspace.json` (`Except.error` = metadata missing or unparsable). -/
inductive EntryData
  | file
  | dir (meta : Except String WorkspaceMeta)
  deriving DecidableEq

/-- The state of the managed root: whether the root directory exists
(`fs.readdir` on a missing root throws), and its immediate entries in
`readdir` order, each with the outcome of its metadata read. -/
structure RootState where
  rootExists : Bool
  entries : List (String × EntryData)

/-- The entry loop of `WorkspaceManager.list` (`src/manager.ts`,
lines 315–332), threading the `handles` array as an accumulator:
non-directories are skipped, a failing metadata read is caught and the
entry skipped, a successful one appends the reconstructed handle. -/
def listLoop (root : String) :
    List (String × EntryData) → List WorkspaceHandle → List WorkspaceHandle
  | [], handles => handles
  | (_, EntryData.file) :: rest, handles => listLoop root rest handles
  | (_, EntryData.dir (Except.error _)) :: rest, handles => listLoop root rest handles
  | (name, EntryData.dir (Except.ok meta)) :: rest, handles =>
    listLoop root rest (handles ++ [mkHandle root name meta])

/-- Exception-level `WorkspaceManager.list` (`src/manager.ts`,
lines 310–339): the whole body is inside a `try` whose `catch` returns
`[]` (root missing); inside the loop, each metadata read has its own
`try/catch` that skips the entry.  `Except.error` at the top would mean
`list` raised. -/
def listE (st : RootState) (root : String) : Except String (List WorkspaceHandle) :=
  match (if st.rootExists then Except.ok st.entries
         else (Except.error "ENOENT" : Except String (List (String × EntryData)))) with
  | Except.error _ => Except.ok []
  | Except.ok entries => Except.ok (listLoop root entries [])

/-- Pure value of `WorkspaceManager.list`: the handles of exactly those
root entries that are directories with readable, parsable metadata, in
`readdir` order; `[]` when the root does not exist. -/
def listWs (st : RootState) (root : String) : List WorkspaceHandle :=
  if st.rootExists then
    st.entries.filterMap (fun e =>
      match e with
      | (_, EntryData.file) => none
      | (_, EntryData.dir (Except.error _)) => none
      | (name, EntryData.dir (Except.ok meta)) => some (mkHandle root name meta))
  else []

/-- Method `WorkspaceManager.cleanup` (`src/manager.ts`, lines 305–307):
`fs.rm(handle.path, { recursive: true, force: true })` — removes the root
entry whose directory path equals `handle.path`; with `force`, removing an
absent path is a no-op. -/
def cleanup (st : RootState) (root targetPath : String) : RootState :=
  ⟨st.rootExists, st.entries.filter (fun e => !(pathJoin root e.1 == targetPath))⟩

/-- The handle loop of `WorkspaceManager.pruneStale` (`src/manager.ts`,
lines 347–352): for each listed handle, when
`handle.createdAt.getTime() < cutoff` it is cleaned up and the counter
incremented. -/
def pruneLoop (root : String) (cutoff : Int) :
    List WorkspaceHandle → RootState → Nat → RootState × Nat
  | [], st, pruned => (st, pruned)
  | h :: rest, st, pruned =>
    if h.createdAt < cutoff then
      pruneLoop root cutoff rest (cleanup st root h.path) (pruned + 1)
    else
      pruneLoop root cutoff rest st pruned

/-- Method `WorkspaceManager.pruneStale` (`src/manager.ts`, lines 342–355):
`cutoff = Date.now() - maxAgeMs`; lists the workspaces, cleans up each one
with `createdAt < cutoff`, and returns the final state together with the
number removed. -/
def pruneStale (st : RootState) (root : String) (now maxAgeMs : Int) :
    RootState × Nat :=
  pruneLoop root (now - maxAgeMs) (listWs st root) st 0

/-- The paths `pruneStale` cleans up: the paths of the listed handles
strictly older than the cutoff. -/
def stalePaths (cutoff : Int) (hs : List WorkspaceHandle) : List String :=
  (hs.filter (fun h => h.createdAt < cutoff)).map (fun h => h.path)

/-! ## Theorems: Output Validation Engine -/

theorem validateLoop_eq (env : FsEnv) (outputDir : String)
    (l : List OutputFileSpec) (acc : List ValidationError) :
    validateLoop env outputDir l acc = acc ++ (l.map (checkSpec env outputDir)).flatten := by
  induction l generalizing acc with
  | nil => simp [validateLoop]
  | cons fs rest ih => simp [validateLoop, ih]

theorem checkSpecE_ok (env : FsEnv) (outputDir : String) (fs : OutputFileSpec)
    (errors : List ValidationError) :
    checkSpecE env outputDir fs errors = Except.ok (errors ++ checkSpec env outputDir fs) := by
  unfold checkSpecE checkSpec
  cases env.access (pathJoin outputDir fs.path) with
  | error e => cases fs.required <;> simp
  | ok u => cases env.decode fs.format (pathJoin outputDir fs.path) <;> simp

theorem validateLoopE_ok (env : FsEnv) (outputDir : String)
    (l : List OutputFileSpec) (acc : List ValidationError) :
    validateLoopE env outputDir l acc = Except.ok (validateLoop env outputDir l acc) := by
  induction l generalizing acc with
  | nil => rfl
  | cons fs rest ih => simp [validateLoopE, validateLoop, checkSpecE_ok, ih]

/-- C1: for every filesystem/codec environment — including decode failures,
missing files, a throwing schema and a throwing or rejecting predicate —
`validateOutput` returns a `ValidationResult` and never raises: the
exception-level translation, in which any uncaught throw would surface as
`Except.error`, always yields `Except.ok` of the pure result. -/
theorem validateOutput_never_raises (env : FsEnv) (outputDir : String) (spec : OutputSpec) :
    validateOutputE env outputDir spec = Except.ok (validateOutput env outputDir spec) := by
  unfold validateOutputE validateOutput
  rw [validateLoopE_ok]

theorem schemaErrors_length (fs : OutputFileSpec) (content : Value) :
    (schemaErrors fs content).length ≤ (if fs.schema.isSome then 1 else 0) := by
  unfold schemaErrors
  cases fs.schema with
  | none => simp
  | some sch => cases h : runSchema sch fs.format content <;> simp [h]

theorem validateErrors_length (fs : OutputFileSpec) (content : Value) :
    (validateErrors fs content).length ≤ (if fs.validate.isSome then 1 else 0) := by
  unfold validateErrors
  cases fs.validate with
  | none => simp
  | some f =>
    cases hf : f content with
    | error e => simp [hf]
    | ok r =>
      by_cases hr : r = JsVal.bool false <;> simp [hf, hr]

theorem checkSpec_length_le (env : FsEnv) (outputDir : String) (fs : OutputFileSpec) :
    (checkSpec env outputDir fs).length
      ≤ (if fs.schema.isSome && fs.validate.isSome then 2 else 1) := by
  rcases fs with ⟨p, fmt, req, desc, os, ov⟩
  unfold checkSpec
  dsimp only
  cases env.access (pathJoin outputDir p) with
  | error e =>
    cases req <;> cases os <;> cases ov <;> simp
  | ok u =>
    cases env.decode fmt (pathJoin outputDir p) with
    | error e => cases os <;> cases ov <;> simp
    | ok content =>
      simp only [List.length_append]
      cases os with
      | none =>
        cases ov with
        | none => simp [schemaErrors, validateErrors]
        | some f =>
          have h2 := validateErrors_length ⟨p, fmt, req, desc, none, some f⟩ content
          simp [schemaErrors] at h2 ⊢
          omega
      | some sch =>
        cases ov with
        | none =>
          have h1 := schemaErrors_length ⟨p, fmt, req, desc, some sch, none⟩ content
          simp [validateErrors] at h1 ⊢
          omega
        | some f =>
          have h1 := schemaErrors_length ⟨p, fmt, req, desc, some sch, some f⟩ content
          have h2 := validateErrors_length ⟨p, fmt, req, desc, some sch, some f⟩ content
          simp at h1 h2 ⊢
          omega

/-- C2: the error count of `validateOutput` is the sum, over the file
specs, of each spec's independently determined failure count; each per-spec
count is at most 2, and can only reach 2 when both a schema and a custom
predicate are configured; and the `valid` flag is exactly
`errors.length == 0`. -/
theorem validateOutput_completeness (env : FsEnv) (outputDir : String) (spec : OutputSpec) :
    (validateOutput env outputDir spec).errors.length
      = (spec.files.map (fun fs => (checkSpec env outputDir fs).length)).sum
    ∧ (∀ fs : OutputFileSpec, (checkSpec env outputDir fs).length
        ≤ (if fs.schema.isSome && fs.validate.isSome then 2 else 1))
    ∧ (validateOutput env outputDir spec).valid
      = ((validateOutput env outputDir spec).errors.length == 0) := by
  refine ⟨?_, fun fs => checkSpec_length_le env outputDir fs, rfl⟩
  show (validateLoop env outputDir spec.files []).length = _
  rw [validateLoop_eq]
  simp [List.length_flatten, Function.comp_def]

/-- C9: the error sequence of `validateOutput` is exactly the
concatenation, in spec-declaration order, of each file spec's own error
list — all errors of an earlier spec precede all errors of a later one,
and the result is a deterministic function of the spec and the directory
state. -/
theorem validateOutput_errors_in_spec_order (env : FsEnv) (outputDir : String)
    (spec : OutputSpec) :
    (validateOutput env outputDir spec).errors
      = (spec.files.map (checkSpec env outputDir)).flatten := by
  show validateLoop env outputDir spec.files [] = _
  rw [validateLoop_eq]
  simp

/-- C3: when the file exists and decodes, the custom predicate check runs
whenever `validate` is present, regardless of the schema check's outcome
(the spec's error list is always the schema block's errors followed by the
predicate block's errors); in particular, a spec whose schema rejects and
whose predicate throws on the same file yields exactly two errors, one
`"Schema validation failed: .."` and one `"Custom validation threw: .."`,
in that order. -/
theorem checkSpec_schema_predicate_independent
    (env : FsEnv) (outputDir : String) (fs : OutputFileSpec) (content : Value)
    (sch : Value → Except String Value) (f : Value → Except String JsVal) (e₁ e₂ : String)
    (hacc : env.access (pathJoin outputDir fs.path) = Except.ok ())
    (hdec : env.decode fs.format (pathJoin outputDir fs.path) = Except.ok content)
    (hs : fs.schema = some sch) (hv : fs.validate = some f)
    (hsch : runSchema sch fs.format content = Except.error e₁)
    (hval : f content = Except.error e₂) :
    checkSpec env outputDir fs = schemaErrors fs content ++ validateErrors fs content
    ∧ validateOutput env outputDir ⟨[fs]⟩
      = ⟨false, [⟨fs.path, "Schema validation failed: " ++ e₁⟩,
                 ⟨fs.path, "Custom validation threw: " ++ e₂⟩]⟩ := by
  have hcs : checkSpec env outputDir fs = schemaErrors fs content ++ validateErrors fs content := by
    unfold checkSpec
    rw [hacc, hdec]
  have hse : schemaErrors fs content = [⟨fs.path, "Schema validation failed: " ++ e₁⟩] := by
    simp only [schemaErrors, hs, hsch]
  have hve : validateErrors fs content = [⟨fs.path, "Custom validation threw: " ++ e₂⟩] := by
    simp only [validateErrors, hv, hval]
  refine ⟨hcs, ?_⟩
  unfold validateOutput
  simp [validateLoop, hcs, hse, hve]

/-- Witness for C3 at a concrete environment: a JSON file that decodes to
`Value.atom 0`, a schema throwing `"bad shape"` and a predicate throwing
`"boom"` produce exactly the two expected errors, in order. -/
theorem checkSpec_schema_predicate_independent_witness :
    validateOutput
        ⟨fun _ => Except.ok (), fun _ _ => Except.ok (Value.atom 0)⟩ "out"
        ⟨[⟨"r.json", Format.json, true, none,
           some (fun _ => Except.error "bad shape"),
           some (fun _ => Except.error "boom")⟩]⟩
      = ⟨false, [⟨"r.json", "Schema validation failed: bad shape"⟩,
                 ⟨"r.json", "Custom validation threw: boom"⟩]⟩ :=
  (checkSpec_schema_predicate_independent
    ⟨fun _ => Except.ok (), fun _ _ => Except.ok (Value.atom 0)⟩ "out"
    ⟨"r.json", Format.json, true, none,
      some (fun _ => Except.error "bad shape"),
      some (fun _ => Except.error "boom")⟩
    (Value.atom 0)
    (fun _ => Except.error "bad shape") (fun _ => Except.error "boom")
    "bad shape" "boom" rfl rfl rfl rfl rfl rfl).2

/-- C8: for a file spec whose file is absent, the spec contributes exactly
one `"Required file missing"` error (with the parenthesized description
appended when supplied) when `required` is true, and nothing when
`required` is false; the result does not depend on the codec, the schema
or the predicate, none of which runs. -/
theorem checkSpec_missing_file (env : FsEnv) (outputDir : String) (fs : OutputFileSpec)
    (e : String)
    (hacc : env.access (pathJoin outputDir fs.path) = Except.error e) :
    checkSpec env outputDir fs
      = (if fs.required then
          [⟨fs.path, "Required file missing" ++ descSuffix fs.description⟩]
        else []) := by
  unfold checkSpec
  rw [hacc]

/-- Witness for C8 at a concrete environment with every file absent: a
required spec with a description yields the one annotated error; an
optional spec yields nothing — even though both have a throwing schema and
a throwing predicate configured. -/
theorem checkSpec_missing_file_witness :
    checkSpec ⟨fun _ => Except.error "ENOENT", fun _ _ => Except.ok (Value.atom 0)⟩ "out"
        ⟨"a.json", Format.json, true, some "the main result",
          some (fun _ => Except.error "x"), some (fun _ => Except.error "y")⟩
      = [⟨"a.json", "Required file missing (the main result)"⟩]
    ∧ checkSpec ⟨fun _ => Except.error "ENOENT", fun _ _ => Except.ok (Value.atom 0)⟩ "out"
        ⟨"b.json", Format.json, false, none,
          some (fun _ => Except.error "x"), some (fun _ => Except.error "y")⟩
      = [] :=
  ⟨(checkSpec_missing_file
      ⟨fun _ => Except.error "ENOENT", fun _ _ => Except.ok (Value.atom 0)⟩ "out"
      ⟨"a.json", Format.json, true, some "the main result",
        some (fun _ => Except.error "x"), some (fun _ => Except.error "y")⟩
      "ENOENT" rfl).trans rfl,
   (checkSpec_missing_file
      ⟨fun _ => Except.error "ENOENT", fun _ _ => Except.ok (Value.atom 0)⟩ "out"
      ⟨"b.json", Format.json, false, none,
        some (fun _ => Except.error "x"), some (fun _ => Except.error "y")⟩
      "ENOENT" rfl).trans rfl⟩

/-- C10: when the custom predicate returns without throwing, the engine
emits `"Custom validation returned false"` exactly when the returned value
is strictly the boolean `false` (`result === false`); any other returned
value — including the runtime-falsy `0`, `""`, `null` and `undefined` —
produces no error for the predicate check. -/
theorem checkSpec_custom_strict_false
    (env : FsEnv) (outputDir : String) (fs : OutputFileSpec) (content : Value)
    (f : Value → Except String JsVal) (r : JsVal)
    (hacc : env.access (pathJoin outputDir fs.path) = Except.ok ())
    (hdec : env.decode fs.format (pathJoin outputDir fs.path) = Except.ok content)
    (hv : fs.validate = some f) (hr : f content = Except.ok r) :
    checkSpec env outputDir fs
      = schemaErrors fs content
        ++ (if r = JsVal.bool false
            then [⟨fs.path, "Custom validation returned false"⟩] else []) := by
  have hve : validateErrors fs content
      = (if r = JsVal.bool false
          then [⟨fs.path, "Custom validation returned false"⟩] else []) := by
    simp only [validateErrors, hv, hr]
  unfold checkSpec
  rw [hacc, hdec]
  show schemaErrors fs content ++ validateErrors fs content = _
  rw [hve]

/-- Witness for C10 at concrete environments: a predicate returning the
runtime-falsy number `0` contributes no error, one returning `null`
contributes no error, and one returning the boolean `false` contributes
exactly the `"Custom validation returned false"` error. -/
theorem checkSpec_custom_strict_false_witness :
    checkSpec ⟨fun _ => Except.ok (), fun _ _ => Except.ok (Value.atom 7)⟩ "out"
        ⟨"v.json", Format.json, true, none, none, some (fun _ => Except.ok (JsVal.num 0))⟩
      = []
    ∧ checkSpec ⟨fun _ => Except.ok (), fun _ _ => Except.ok (Value.atom 7)⟩ "out"
        ⟨"w.json", Format.json, true, none, none, some (fun _ => Except.ok JsVal.null)⟩
      = []
    ∧ checkSpec ⟨fun _ => Except.ok (), fun _ _ => Except.ok (Value.atom 7)⟩ "out"
        ⟨"x.json", Format.json, true, none, none, some (fun _ => Except.ok (JsVal.bool false))⟩
      = [⟨"x.json", "Custom validation returned false"⟩] :=
  ⟨(checkSpec_custom_strict_false
      ⟨fun _ => Except.ok (), fun _ _ => Except.ok (Value.atom 7)⟩ "out"
      ⟨"v.json", Format.json, true, none, none, some (fun _ => Except.ok (JsVal.num 0))⟩
      (Value.atom 7) (fun _ => Except.ok (JsVal.num 0)) (JsVal.num 0)
      rfl rfl rfl rfl).trans (by decide),
   (checkSpec_custom_strict_false
      ⟨fun _ => Except.ok (), fun _ _ => Except.ok (Value.atom 7)⟩ "out"
      ⟨"w.json", Format.json, true, none, none, some (fun _ => Except.ok JsVal.null)⟩
      (Value.atom 7) (fun _ => Except.ok JsVal.null) JsVal.null
      rfl rfl rfl rfl).trans (by decide),
   (checkSpec_custom_strict_false
      ⟨fun _ => Except.ok (), fun _ _ => Except.ok (Value.atom 7)⟩ "out"
      ⟨"x.json", Format.json, true, none, none, some (fun _ => Except.ok (JsVal.bool false))⟩
      (Value.atom 7) (fun _ => Except.ok (JsVal.bool false)) (JsVal.bool false)
      rfl rfl rfl rfl).trans (by decide)⟩

/-! ## Theorems: Section Resolver and Lifecycle Manager -/

/-- C7: `WorkspaceHandle.dir` — a pure synchronous lookup with no
filesystem access — throws on a section name not in the recorded `dirs`,
with a message listing every valid section name in recorded order
(defaults first, then declared extras, which is the order `create`
records); on a recorded name it returns the section's path. -/
theorem handle_dir_gating (h : WorkspaceHandle) (name root taskType : String)
    (additionalDirs : List String) (now : Int) (suffix : String) :
    (name ∉ h.dirs →
      h.dir name = Except.error ("Unknown section \"" ++ name ++ "\". Available: "
        ++ String.intercalate ", " h.dirs))
    ∧ (name ∈ h.dirs → h.dir name = Except.ok (pathJoin h.path name))
    ∧ (create root taskType additionalDirs now suffix).handle.dirs
      = DEFAULT_DIRS ++ additionalDirs := by
  refine ⟨?_, ?_, rfl⟩
  · intro hn
    have hc : h.dirs.contains name = false := by
      cases hc : h.dirs.contains name with
      | true => exact absurd (List.mem_of_elem_eq_true hc) hn
      | false => rfl
    unfold WorkspaceHandle.dir
    rw [hc]
    rfl
  · intro hn
    have hc : h.dirs.contains name = true := List.elem_eq_true_of_mem hn
    unfold WorkspaceHandle.dir
    rw [hc]
    rfl

/-- Witness for C7 at a concrete handle with one declared extra section:
the unknown name `"nope"` yields the enumerating error message, the
declared extra resolves to its path. -/
theorem handle_dir_gating_witness :
    WorkspaceHandle.dir
        ⟨"id0", "base/ws", ["input", "output", "resources", "scratch", "extra"], 0⟩ "nope"
      = Except.error
          "Unknown section \"nope\". Available: input, output, resources, scratch, extra"
    ∧ WorkspaceHandle.dir
        ⟨"id0", "base/ws", ["input", "output", "resources", "scratch", "extra"], 0⟩ "extra"
      = Except.ok "base/ws/extra" :=
  ⟨((handle_dir_gating
      ⟨"id0", "base/ws", ["input", "output", "resources", "scratch", "extra"], 0⟩
      "nope" "b" "t" [] 0 "s").1 (by decide)).trans (by decide),
   ((handle_dir_gating
      ⟨"id0", "base/ws", ["input", "output", "resources", "scratch", "extra"], 0⟩
      "extra" "b" "t" [] 0 "s").2.1 (by decide)).trans (by decide)⟩

/-- C6: re-deriving a handle from the metadata record `create` wrote, the
way `list` does — a root whose single entry is the directory `create`
made, holding the metadata `create` wrote — yields exactly the handle
`create` returned: same `id`, same section list (the four defaults
followed by `additionalDirs`), same path, same creation time. -/
theorem create_list_roundtrip (root taskType : String) (additionalDirs : List String)
    (now : Int) (suffix : String) :
    listWs ⟨true, [((create root taskType additionalDirs now suffix).meta.id,
        EntryData.dir (Except.ok (create root taskType additionalDirs now suffix).meta))]⟩ root
      = [(create root taskType additionalDirs now suffix).handle]
    ∧ (create root taskType additionalDirs now suffix).handle.id
      = (create root taskType additionalDirs now suffix).meta.id
    ∧ (create root taskType additionalDirs now suffix).handle.dirs
      = DEFAULT_DIRS ++ additionalDirs :=
  ⟨rfl, rfl, rfl⟩

theorem listLoop_eq (root : String) (l : List (String × EntryData))
    (acc : List WorkspaceHandle) :
    listLoop root l acc = acc ++ l.filterMap (fun e =>
      match e with
      | (_, EntryData.file) => none
      | (_, EntryData.dir (Except.error _)) => none
      | (name, EntryData.dir (Except.ok meta)) => some (mkHandle root name meta)) := by
  induction l generalizing acc with
  | nil => simp [listLoop]
  | cons e rest ih =>
    rcases e with ⟨name, d⟩
    rcases d with _ | m
    · simpa [listLoop] using ih acc
    · rcases m with e' | meta
      · simpa [listLoop] using ih acc
      · simp [listLoop, ih]

theorem mem_listWs (st : RootState) (root : String) (h : WorkspaceHandle) :
    h ∈ listWs st root
      ↔ (st.rootExists = true ∧ ∃ name meta,
          (name, EntryData.dir (Except.ok meta)) ∈ st.entries
          ∧ h = mkHandle root name meta) := by
  unfold listWs
  cases hre : st.rootExists with
  | false => simp
  | true =>
    simp only [if_true, List.mem_filterMap, true_and]
    constructor
    · rintro ⟨⟨name, d⟩, hmem, hf⟩
      rcases d with _ | m
      · simp at hf
      · rcases m with e' | meta
        · simp at hf
        · simp only [Option.some.injEq] at hf
          exact ⟨name, meta, hmem, hf.symm⟩
    · rintro ⟨name, meta, hmem, rfl⟩
      exact ⟨(name, EntryData.dir (Except.ok meta)), hmem, rfl⟩

/-- C5: `list` never raises — the exception-level translation always
returns `Except.ok` of the pure listing; when the managed root does not
exist the listing is empty; and every listed handle comes from a root
entry that is a directory with readable, parsable metadata, so an entry
with missing or corrupt metadata never appears in the output. -/
theorem list_tolerance (st : RootState) (root : String) :
    listE st root = Except.ok (listWs st root)
    ∧ (st.rootExists = false → listWs st root = [])
    ∧ (∀ h ∈ listWs st root, ∃ name meta,
        (name, EntryData.dir (Except.ok meta)) ∈ st.entries
        ∧ h = mkHandle root name meta) := by
  refine ⟨?_, ?_, ?_⟩
  · unfold listE listWs
    cases hre : st.rootExists with
    | false => simp
    | true => simp [listLoop_eq]
  · intro hre
    unfold listWs
    rw [hre]
    simp
  · intro h hm
    exact ((mem_listWs st root h).mp hm).2

/-- Witness for C5 at a concrete root holding one healthy workspace, one
directory with corrupt metadata and one plain file: the healthy handle is
listed and traced back to its entry; a missing root lists nothing. -/
theorem list_tolerance_witness :
    (∃ name meta,
      (name, EntryData.dir (Except.ok meta))
        ∈ [("good", EntryData.dir (Except.ok (⟨"g", "t", 5, ["input"]⟩ : WorkspaceMeta))),
           ("bad", EntryData.dir (Except.error "corrupt")),
           ("note", EntryData.file)]
      ∧ mkHandle "base" "good" ⟨"g", "t", 5, ["input"]⟩ = mkHandle "base" name meta)
    ∧ listWs ⟨false, [("orphan", EntryData.dir (Except.error "corrupt"))]⟩ "base" = [] :=
  ⟨(list_tolerance
      ⟨true, [("good", EntryData.dir (Except.ok (⟨"g", "t", 5, ["input"]⟩ : WorkspaceMeta))),
              ("bad", EntryData.dir (Except.error "corrupt")),
              ("note", EntryData.file)]⟩ "base").2.2
    (mkHandle "base" "good" ⟨"g", "t", 5, ["input"]⟩) (by decide),
   (list_tolerance
      ⟨false, [("orphan", EntryData.dir (Except.error "corrupt"))]⟩ "base").2.1 rfl⟩

theorem pathJoin_right_inj {root a b : String} (h : pathJoin root a = pathJoin root b) :
    a = b := by
  unfold pathJoin at h
  have hd := congrArg String.data h
  simp only [String.data_append, List.append_assoc] at hd
  exact String.ext (List.append_cancel_left (List.append_cancel_left hd))

theorem nodupKeys_eq {l : List (String × EntryData)} (hnd : (l.map Prod.fst).Nodup)
    {a : String} {b c : EntryData} (hb : (a, b) ∈ l) (hc : (a, c) ∈ l) : b = c := by
  induction l with
  | nil => cases hb
  | cons x rest ih =>
    have hnd' : x.1 ∉ rest.map Prod.fst ∧ (rest.map Prod.fst).Nodup := by
      simpa [List.nodup_cons] using hnd
    rcases List.mem_cons.mp hb with hb1 | hb2 <;> rcases List.mem_cons.mp hc with hc1 | hc2
    · exact congrArg Prod.snd (hb1.trans hc1.symm)
    · exfalso
      apply hnd'.1
      rw [← hb1]
      exact List.mem_map.mpr ⟨(a, c), hc2, rfl⟩
    · exfalso
      apply hnd'.1
      rw [← hc1]
      exact List.mem_map.mpr ⟨(a, b), hb2, rfl⟩
    · exact ih hnd'.2 hb2 hc2

theorem mem_stalePaths {cutoff : Int} {hs : List WorkspaceHandle} {x : String} :
    x ∈ stalePaths cutoff hs
      ↔ ∃ h, (h ∈ hs ∧ h.createdAt < cutoff) ∧ h.path = x := by
  unfold stalePaths
  simp [List.mem_map, List.mem_filter]

theorem pruneLoop_count (root : String) (cutoff : Int) (hs : List WorkspaceHandle)
    (st : RootState) (p : Nat) :
    (pruneLoop root cutoff hs st p).2
      = p + (hs.filter (fun h => h.createdAt < cutoff)).length := by
  induction hs generalizing st p with
  | nil => simp [pruneLoop]
  | cons h rest ih =>
    by_cases hc : h.createdAt < cutoff <;> simp [pruneLoop, hc, ih] <;> omega

theorem pruneLoop_rootExists (root : String) (cutoff : Int) (hs : List WorkspaceHandle)
    (st : RootState) (p : Nat) :
    (pruneLoop root cutoff hs st p).1.rootExists = st.rootExists := by
  induction hs generalizing st p with
  | nil => rfl
  | cons h rest ih =>
    by_cases hc : h.createdAt < cutoff <;> simp [pruneLoop, hc, ih, cleanup]

theorem pruneLoop_mem_entries (root : String) (cutoff : Int) (hs : List WorkspaceHandle)
    (st : RootState) (p : Nat) (e : String × EntryData) :
    e ∈ (pruneLoop root cutoff hs st p).1.entries
      ↔ e ∈ st.entries ∧ ¬(pathJoin root e.1 ∈ stalePaths cutoff hs) := by
  induction hs generalizing st p with
  | nil => simp [pruneLoop, stalePaths]
  | cons h rest ih =>
    by_cases hc : h.createdAt < cutoff
    · rw [show pruneLoop root cutoff (h :: rest) st p
          = pruneLoop root cutoff rest (cleanup st root h.path) (p + 1) from by
        simp [pruneLoop, hc]]
      rw [ih]
      simp only [cleanup, List.mem_filter, mem_stalePaths, List.mem_cons]
      constructor
      · rintro ⟨⟨he, hne⟩, hnot⟩
        refine ⟨he, ?_⟩
        rintro ⟨h', ⟨hh' | hh', hlt⟩, hp⟩
        · rw [hh'] at hp
          have hne' : ¬(pathJoin root e.1 = h.path) := by simpa using hne
          exact hne' hp.symm
        · exact hnot ⟨h', ⟨hh', hlt⟩, hp⟩
      · rintro ⟨he, hnot⟩
        refine ⟨⟨he, ?_⟩, ?_⟩
        · simp only [Bool.not_eq_eq_eq_not, Bool.not_true, beq_eq_false_iff_ne, ne_eq]
          intro hp
          exact hnot ⟨h, ⟨Or.inl rfl, hc⟩, hp.symm⟩
        · rintro ⟨h', ⟨hh', hlt⟩, hp⟩
          exact hnot ⟨h', ⟨Or.inr hh', hlt⟩, hp⟩
    · rw [show pruneLoop root cutoff (h :: rest) st p
          = pruneLoop root cutoff rest st p from by simp [pruneLoop, hc]]
      rw [ih]
      simp only [mem_stalePaths, List.mem_cons]
      constructor
      · rintro ⟨he, hnot⟩
        refine ⟨he, ?_⟩
        rintro ⟨h', ⟨hh' | hh', hlt⟩, hp⟩
        · rw [hh'] at hlt
          exact hc hlt
        · exact hnot ⟨h', ⟨hh', hlt⟩, hp⟩
      · rintro ⟨he, hnot⟩
        refine ⟨he, ?_⟩
        rintro ⟨h', ⟨hh', hlt⟩, hp⟩
        exact hnot ⟨h', ⟨Or.inr hh', hlt⟩, hp⟩

theorem mem_stalePaths_of_entry (st : RootState) (root : String) (cutoff : Int)
    {n : String} {m : WorkspaceMeta}
    (hroot : st.rootExists = true)
    (hmem : (n, EntryData.dir (Except.ok m)) ∈ st.entries)
    (hlt : m.createdAt < cutoff) :
    pathJoin root n ∈ stalePaths cutoff (listWs st root) := by
  refine mem_stalePaths.mpr ⟨mkHandle root n m, ⟨?_, hlt⟩, rfl⟩
  exact (mem_listWs st root _).mpr ⟨hroot, n, m, hmem, rfl⟩

theorem stalePaths_iff_of_nodup (st : RootState) (root : String) (cutoff : Int)
    {n : String} {m : WorkspaceMeta}
    (hroot : st.rootExists = true)
    (hnd : (st.entries.map Prod.fst).Nodup)
    (hmem : (n, EntryData.dir (Except.ok m)) ∈ st.entries) :
    (pathJoin root n ∈ stalePaths cutoff (listWs st root)) ↔ m.createdAt < cutoff := by
  constructor
  · intro hin
    obtain ⟨h', ⟨hh', hlt⟩, hp⟩ := mem_stalePaths.mp hin
    obtain ⟨-, n', m', hmem', rfl⟩ := (mem_listWs st root h').mp hh'
    have hp' : pathJoin root n' = pathJoin root n := hp
    have hn : n' = n := pathJoin_right_inj hp'
    subst hn
    have hdm : EntryData.dir (Except.ok m') = EntryData.dir (Except.ok m) :=
      nodupKeys_eq hnd hmem' hmem
    have hm : m' = m := by
      cases hdm
      rfl
    subst hm
    exact hlt
  · intro hlt
    exact mem_stalePaths_of_entry st root cutoff hroot hmem hlt

/-- C4 (amended): for a workspace whose metadata records creation time
`T`, `pruneStale(maxAgeMs)` at time `now` removes it if and only if
`now - T > maxAgeMs` — strictly older than the cutoff; a workspace with
`now - T = maxAgeMs` exactly is kept.  It returns the number of listed
workspaces it removed, and running it again on the resulting state at the
same instant removes `0`. -/
theorem pruneStale_spec (st : RootState) (root : String) (now maxAgeMs : Int)
    (name : String) (meta : WorkspaceMeta)
    (hroot : st.rootExists = true)
    (hnd : (st.entries.map Prod.fst).Nodup)
    (hmem : (name, EntryData.dir (Except.ok meta)) ∈ st.entries) :
    ((name, EntryData.dir (Except.ok meta)) ∈ (pruneStale st root now maxAgeMs).1.entries
      ↔ ¬(now - meta.createdAt > maxAgeMs))
    ∧ (pruneStale st root now maxAgeMs).2
      = ((listWs st root).filter (fun h => h.createdAt < now - maxAgeMs)).length
    ∧ (pruneStale (pruneStale st root now maxAgeMs).1 root now maxAgeMs).2 = 0 := by
  have hiff := stalePaths_iff_of_nodup st root (now - maxAgeMs) hroot hnd hmem
  refine ⟨?_, ?_, ?_⟩
  · show (name, EntryData.dir (Except.ok meta))
        ∈ (pruneLoop root (now - maxAgeMs) (listWs st root) st 0).1.entries ↔ _
    rw [pruneLoop_mem_entries]
    constructor
    · rintro ⟨-, hnot⟩
      intro hgt
      apply hnot
      show pathJoin root name ∈ _
      exact hiff.mpr (by omega)
    · intro hle
      refine ⟨hmem, ?_⟩
      intro hin
      have hin' : pathJoin root name ∈ stalePaths (now - maxAgeMs) (listWs st root) := hin
      have := hiff.mp hin'
      omega
  · show (pruneLoop root (now - maxAgeMs) (listWs st root) st 0).2 = _
    rw [pruneLoop_count]
    omega
  · set st₂ := (pruneStale st root now maxAgeMs).1 with hst₂
    show (pruneLoop root (now - maxAgeMs) (listWs st₂ root) st₂ 0).2 = 0
    rw [pruneLoop_count]
    simp only [Nat.zero_add]
    rw [List.length_eq_zero, List.filter_eq_nil_iff]
    intro h' hm'
    simp only [decide_eq_true_eq]
    intro hlt
    obtain ⟨hre₂, n', m', hmem₂, rfl⟩ := (mem_listWs st₂ root h').mp hm'
    have hmem₂' : (n', EntryData.dir (Except.ok m'))
        ∈ (pruneLoop root (now - maxAgeMs) (listWs st root) st 0).1.entries := hmem₂
    obtain ⟨hmemSt, hnot⟩ :=
      (pruneLoop_mem_entries root (now - maxAgeMs) (listWs st root) st 0
        (n', EntryData.dir (Except.ok m'))).mp hmem₂'
    apply hnot
    show pathJoin root n' ∈ _
    exact mem_stalePaths_of_entry st root (now - maxAgeMs) hroot hmemSt hlt

/-- Witness for C4 (amended) at a concrete root with one stale and one
fresh workspace, pruned at `now = 100` with `maxAgeMs = 50`: the fresh
workspace (age 0) is kept, exactly one workspace is removed, and an
immediate second prune removes nothing. -/
theorem pruneStale_spec_witness :
    (("fresh", EntryData.dir (Except.ok (⟨"fresh", "t", 100, ["input"]⟩ : WorkspaceMeta)))
        ∈ (pruneStale
            ⟨true, [("old", EntryData.dir (Except.ok ⟨"old", "t", 0, ["input"]⟩)),
                    ("fresh", EntryData.dir (Except.ok ⟨"fresh", "t", 100, ["input"]⟩))]⟩
            "base" 100 50).1.entries
      ↔ ¬((100 : Int) - 100 > 50))
    ∧ (pruneStale
        ⟨true, [("old", EntryData.dir (Except.ok ⟨"old", "t", 0, ["input"]⟩)),
                ("fresh", EntryData.dir (Except.ok ⟨"fresh", "t", 100, ["input"]⟩))]⟩
        "base" 100 50).2
      = ((listWs
          ⟨true, [("old", EntryData.dir (Except.ok ⟨"old", "t", 0, ["input"]⟩)),
                  ("fresh", EntryData.dir (Except.ok ⟨"fresh", "t", 100, ["input"]⟩))]⟩
          "base").filter (fun h => h.createdAt < (100 : Int) - 50)).length
    ∧ (pruneStale
        (pruneStale
          ⟨true, [("old", EntryData.dir (Except.ok ⟨"old", "t", 0, ["input"]⟩)),
                  ("fresh", EntryData.dir (Except.ok ⟨"fresh", "t", 100, ["input"]⟩))]⟩
          "base" 100 50).1 "base" 100 50).2 = 0 :=
  pruneStale_spec
    ⟨true, [("old", EntryData.dir (Except.ok ⟨"old", "t", 0, ["input"]⟩)),
            ("fresh", EntryData.dir (Except.ok ⟨"fresh", "t", 100, ["input"]⟩))]⟩
    "base" 100 50 "fresh" ⟨"fresh", "t", 100, ["input"]⟩ rfl (by decide) (by decide)

/-- C4 counterexample: the claim as stated demands removal when
`now - T ≥ maxAgeMs`.  A workspace created at `T = 0`, pruned at
`now = 5` with `maxAgeMs = 5`, satisfies `now - T ≥ maxAgeMs`, yet the
engine removes nothing (it removes only when `createdAt < now - maxAgeMs`,
a strict comparison): the prune count is `0` and the workspace's entry
survives. -/
theorem pruneStale_boundary_counterexample :
    ((5 : Int) - 0 ≥ 5)
    ∧ (pruneStale ⟨true, [("w", EntryData.dir (Except.ok ⟨"w", "t", 0, ["input"]⟩))]⟩
        "base" 5 5).2 = 0
    ∧ ("w", EntryData.dir (Except.ok (⟨"w", "t", 0, ["input"]⟩ : WorkspaceMeta)))
      ∈ (pruneStale ⟨true, [("w", EntryData.dir (Except.ok ⟨"w", "t", 0, ["input"]⟩))]⟩
          "base" 5 5).1.entries := by
  refine ⟨by decide, by decide, by decide⟩

end AgentWorkspace
